import Mathlib

/-!
A verification development for the upstock-oi-tracker repository.

The repository tracks option-chain open interest (OI): it finds the
at-the-money strike, selects a band of strikes around it, records
(timestamp, OI) samples per instrument, computes percentage OI change over
lookback windows, flags threshold breaches and raises a majority alert.

This file gives a shallow embedding of the relevant functions:
 - `calculate_oi_change` (src/logic.py:43, src/tracker_logic.py:116,
   src/oi_tracker.py:74 — the three copies are textually identical),
 - the backward past-sample scan of `app.calculate_oi_change`
   (src/app.py:173-193) together with Python `round(x, 2)` semantics,
 - `find_oi_at_timestamp` (src/oi_tracker.py:514-546),
 - `find_atm_strike` (src/logic.py:98, src/oi_tracker.py:47),
 - `get_relevant_strikes` (src/logic.py:102, src/oi_tracker.py:51),
 - the red-cell counting of `create_oi_table` (src/oi_tracker.py:80-104),
 - the per-cell breach test of `generate_options_tables`
   (src/oi_tracker.py:704-714),
 - the alert condition of `update_data_in_background` (src/app.py:274)
   and of `main` (src/oi_tracker.py:176-178),
 - series/table appends (src/oi_tracker.py:157, src/database.py:141-153),
 - the control flow of `update_data_in_background` (src/app.py:215-284).

Python floats are modelled as ℚ, datetimes as ℤ (totally ordered time
stamps), OI counts as ℤ, and fallible values as `Option`.
-/

namespace OiTracker

/-- A candle/sample: a timestamp paired with the open interest it carries.
Python represents candles as lists/dicts; only the timestamp (`candle[0]`
resp. `candle['date']`) and the OI (`candle[6]` resp. `candle['oi']`) are
read by the code embedded here. -/
structure Candle where
  time : ℤ
  oi : ℤ
deriving DecidableEq

/-- src/logic.py:43-47 (identical copies at src/tracker_logic.py:116-120 and
src/oi_tracker.py:74-78):

    def calculate_oi_change(initial_oi, current_oi):
        if initial_oi is None or current_oi is None or initial_oi == 0:
            return 0.0
        return ((current_oi - initial_oi) / initial_oi) * 100
-/
def calculate_oi_change : Option ℚ → Option ℚ → ℚ
  | none, _ => 0
  | some _, none => 0
  | some i, some c => if i = 0 then 0 else ((c - i) / i) * 100

/-- Division that signals the divisor-zero case instead of defaulting,
used to show the division in `calculate_oi_change` is guarded. -/
def checkedDiv (a b : ℚ) : Option ℚ :=
  if b = 0 then none else some (a / b)

/-- `calculate_oi_change` with its division replaced by `checkedDiv`:
`none` would mean the code reached a division by zero. -/
def calculate_oi_change_checked : Option ℚ → Option ℚ → Option ℚ
  | none, _ => some 0
  | some _, none => some 0
  | some i, some c =>
      if i = 0 then some 0 else (checkedDiv (c - i) i).map (· * 100)

/-- The backward scan of src/app.py:182-187, iterating `reversed(candles)`
and returning the OI of the first candle whose timestamp is at or before
the target:

    for candle in reversed(candles):
        candle_time = datetime.fromtimestamp(int(candle[0]) / 1000)
        if candle_time <= target_time:
            past_oi = candle[6]
            break

`appGo` is the loop body over the already-reversed list. -/
def appGo (target : ℤ) : List Candle → Option ℤ
  | [] => none
  | c :: cs => if c.time ≤ target then some c.oi else appGo target cs

/-- The past-OI lookup of src/app.py `calculate_oi_change`: scan the candle
list from the most recent entry backward. -/
def appPastOi (candles : List Candle) (target : ℤ) : Option ℤ :=
  appGo target candles.reverse

/-- Round-half-to-even on ℚ, the semantics of Python's builtin `round`
applied to an exact value: nearest integer, ties to the even neighbour. -/
def roundHalfEven (x : ℚ) : ℤ :=
  if x - ⌊x⌋ < 1 / 2 then ⌊x⌋
  else if 1 / 2 < x - ⌊x⌋ then ⌊x⌋ + 1
  else if 2 ∣ ⌊x⌋ then ⌊x⌋ else ⌊x⌋ + 1

/-- Python `round(x, 2)`: round to two decimal places. -/
def pythonRound2 (x : ℚ) : ℚ :=
  (roundHalfEven (x * 100) : ℚ) / 100

/-- One cell of src/app.py:173-193 `calculate_oi_change` (the body of the
`for minutes in OI_INTERVALS_MIN` loop): look up the nearest past sample at
`now - window`; if it exists and its OI is strictly positive, return the
percentage change rounded to two decimals, otherwise the number 0:

    if past_oi is not None and past_oi > 0:
        oi_changes[...] = round(((latest_oi - past_oi) / past_oi) * 100, 2)
    else:
        oi_changes[...] = 0
-/
def appOiChangeCell (candles : List Candle) (latest_oi : ℤ) (now window : ℤ) : ℚ :=
  match appPastOi candles (now - window) with
  | some past =>
      if 0 < past then pythonRound2 (((latest_oi : ℚ) - past) / past * 100) else 0
  | none => 0

/-- src/app.py:30 `OI_INTERVALS_MIN = [10, 15, 30]`. -/
def OI_INTERVALS_MIN : List ℤ := [10, 15, 30]

/-- src/app.py:173-193 `calculate_oi_change(candles, latest_oi)`: the dict
of per-window changes, as an association list window ↦ change. -/
def app_calculate_oi_change (candles : List Candle) (latest_oi : ℤ) (now : ℤ) :
    List (ℤ × ℚ) :=
  OI_INTERVALS_MIN.map fun m => (m, appOiChangeCell candles latest_oi now m)

/-- The `latest_oi_and_time` filter inside src/oi_tracker.py:541-542: a
candle at or before the target is skipped (`continue`) when a latest
reference point is supplied and the candle is strictly newer than it. -/
def latOk (lat : Option (ℤ × ℤ)) (c : Candle) : Bool :=
  match lat with
  | none => true
  | some l => decide (c.time ≤ l.2)

/-- The loop of src/oi_tracker.py:535-546 over the already-reversed candle
list: return the OI of the first candle with `candle_time <= target_time`
that also passes the `latest_oi_and_time` filter; `continue` otherwise. -/
def findGo (target : ℤ) (lat : Option (ℤ × ℤ)) : List Candle → Option ℤ
  | [] => none
  | c :: cs =>
      if c.time ≤ target then
        if latOk lat c then some c.oi else findGo target lat cs
      else findGo target lat cs

/-- src/oi_tracker.py:514-546 `find_oi_at_timestamp(historical_candles,
target_time, latest_oi_and_time)`: iterate `reversed(historical_candles)`
and return the first OI at or before `target_time` (subject to the latest
filter), or None. An empty candle list returns None. -/
def find_oi_at_timestamp (candles : List Candle) (target : ℤ)
    (lat : Option (ℤ × ℤ)) : Option ℤ :=
  findGo target lat candles.reverse

/-- src/logic.py:98-100 (identical copies at src/oi_tracker.py:47-49 and
src/tracker_logic.py:101-103):

    def find_atm_strike(ltp, strikes):
        return min(strikes, key=lambda x: abs(x - ltp))

Python's `min` with a key keeps the first element of the iteration whose
key is strictly smaller than the current best, so the first minimiser in
list order wins ties; on an empty list it raises (here: `none`). -/
def find_atm_strike (ltp : ℚ) : List ℚ → Option ℚ
  | [] => none
  | s :: rest =>
      some (rest.foldl (fun best x => if |x - ltp| < |best - ltp| then x else best) s)

/-- src/logic.py:102-111 / src/tracker_logic.py:105-114 (with n = 3) and
src/oi_tracker.py:51-61 (with n = 2), generalised over the band half-width:

    def get_relevant_strikes(atm_strike, strikes):
        strikes.sort()
        try:
            atm_index = strikes.index(atm_strike)
            start_index = max(0, atm_index - n)
            end_index = min(len(strikes), atm_index + n + 1)
            return strikes[start_index:end_index]
        except (ValueError, IndexError):
            return []

`List.findIdx?` models `.index` (first occurrence, exception as `none`);
the slice `[start:end]` is `(take end).drop start`, and ℕ-truncated
subtraction `i - n` is exactly `max(0, i - n)`. -/
def getRelevantStrikesN (n : ℕ) (atm : ℚ) (strikes : List ℚ) : List ℚ :=
  let sorted := strikes.mergeSort fun a b => decide (a ≤ b)
  match List.findIdx? (fun x => decide (x = atm)) sorted with
  | none => []
  | some i => (sorted.take (min sorted.length (i + n + 1))).drop (i - n)

/-- src/logic.py:102-111 `get_relevant_strikes` (ATM, 3 ITM, 3 OTM). -/
def get_relevant_strikes_logic (atm : ℚ) (strikes : List ℚ) : List ℚ :=
  getRelevantStrikesN 3 atm strikes

/-- src/oi_tracker.py:51-61 `get_relevant_strikes` (ATM, 2 ITM, 2 OTM). -/
def get_relevant_strikes_tracker (atm : ℚ) (strikes : List ℚ) : List ℚ :=
  getRelevantStrikesN 2 atm strikes

/-- Python `dict.get(k, d)` on an association list. -/
def lookupD (m : List (ℕ × ℚ)) (k : ℕ) (d : ℚ) : ℚ :=
  match m.find? fun p => p.1 == k with
  | some p => p.2
  | none => d

/-- src/oi_tracker.py:89 `thresholds = {10: 10, 15: 15, 30: 25}` used by
`create_oi_table`. -/
def CREATE_THRESHOLDS : List (ℕ × ℚ) := [(10, 10), (15, 15), (30, 25)]

/-- The per-cell highlight test of src/oi_tracker.py:95-99 inside
`create_oi_table`: `change = changes.get(interval, 0)` followed by the
signed comparison `if change > threshold`. -/
def createCellRed (changes : List (ℕ × ℚ)) (interval : ℕ) (th : ℚ) : Bool :=
  decide (lookupD changes interval 0 > th)

/-- src/oi_tracker.py:80-104 `create_oi_table`, restricted to its returned
`red_cell_count`: iterate the strikes in sorted order and, for each of the
three thresholded intervals, count the cell when its change (0 when the
interval is absent) strictly exceeds the threshold. `data` maps a strike to
its per-interval changes. -/
def createOiTableRedCount (data : List (ℚ × List (ℕ × ℚ))) : ℕ :=
  (data.mergeSort fun a b => decide (a.1 ≤ b.1)).foldl
    (fun acc row =>
      CREATE_THRESHOLDS.foldl
        (fun acc2 p => if createCellRed row.2 p.1 p.2 then acc2 + 1 else acc2)
        acc)
    0

/-- src/oi_tracker.py:263-268 `PCT_CHANGE_THRESHOLDS = {5: 8.0, 10: 10.0,
15: 15.0, 30: 25.0}` used by `generate_options_tables`. -/
def PCT_CHANGE_THRESHOLDS : List (ℕ × ℚ) := [(5, 8), (10, 10), (15, 15), (30, 25)]

/-- The per-cell breach test of src/oi_tracker.py:710-713 inside
`generate_options_tables` (same for the call and the put table):

    if pct_oi_change is not None and interval in PCT_CHANGE_THRESHOLDS:
        if abs(pct_oi_change) > PCT_CHANGE_THRESHOLDS[interval]:
            ... breached counter += 1

`pct` is the cell's `pct_diff_{interval}m` entry, `none` when the change is
unavailable. -/
def genBreach (pct : Option ℚ) (interval : ℕ) : Bool :=
  match pct, (PCT_CHANGE_THRESHOLDS.find? fun p => p.1 == interval) with
  | some v, some p => decide (|v| > p.2)
  | _, _ => false

/-- The alert condition shared by src/app.py:274 and src/oi_tracker.py:177:

    if total_cells > 0 and (highlighted_cells / total_cells) > 0.5:

(true-division on ints yields a float; modelled as exact division in ℚ). -/
def computeAlert (highlighted total : ℕ) : Bool :=
  decide (0 < total) && decide ((highlighted : ℚ) / (total : ℚ) > 1 / 2)

/-- src/app.py:244 `strikes_to_fetch`: ATM plus `NUM_STRIKES = 2` strike
steps of `STRIKE_DIFFERENCE = 50` on each side. -/
def strikesToFetch (atm : ℚ) : List ℚ :=
  (List.range 5).map fun i => atm + ((i : ℚ) - 2) * 50

/-- src/app.py:248 `total_cells = len(strikes_to_fetch) * len(OI_INTERVALS_MIN) * 2`. -/
def totalCellsApp (atm : ℚ) : ℕ :=
  (strikesToFetch atm).length * 3 * 2

/-- src/oi_tracker.py:157: the in-memory series of one instrument grows by
`oi_data_store[instrument_key]['data'].append((current_time, latest_oi))` —
an unconditional list append, whatever the timestamp. -/
def appendSample (series : List (ℤ × ℤ)) (t oi : ℤ) : List (ℤ × ℤ) :=
  series ++ [(t, oi)]

/-- One row of the `oi_datapoints` table (src/database.py:34-42; the table
has an autoincrement surrogate key and no uniqueness constraint on
`(instrument_key, timestamp)`). -/
structure OiRow where
  instrument_key : String
  timestamp : ℤ
  oi : ℤ

/-- src/database.py:141-153 `log_oi_datapoint`: a plain
`INSERT INTO oi_datapoints ... VALUES (?, ?, ?)` — every call adds a row. -/
def log_oi_datapoint (table : List OiRow) (key : String) (t oi : ℤ) : List OiRow :=
  table ++ [⟨key, t, oi⟩]

/-- One processed row of src/app.py:213 `{"strike": strike_price, **changes}`
with the three per-window changes `chg_10m`, `chg_15m`, `chg_30m`. -/
structure RowResult where
  strike : ℚ
  chg10 : ℚ
  chg15 : ℚ
  chg30 : ℚ

/-- One side of a strike entry of the option chain (src/app.py:199-203):
the nested object may be absent, and its `instrument_key` may be absent. -/
structure OptionLeg where
  instrument_key : Option String

/-- One `OptionStrikeData` entry of the chain (src/app.py:252-264). -/
structure StrikeData where
  strike_price : ℚ
  call_options : Option OptionLeg
  put_options : Option OptionLeg

/-- src/app.py:195-213 `process_single_option(option_data, strike_price)`:
None when the leg or its instrument key is missing, None when the candle
fetch yields nothing (`get_historical_oi` returns `[]` on error), else the
row with the latest OI's per-window changes. `fetchOi` stands for the
`get_historical_oi` collaborator. -/
def process_single_option (fetchOi : String → List Candle) (now : ℤ)
    (leg : Option OptionLeg) (strike : ℚ) : Option RowResult :=
  match leg with
  | none => none
  | some l =>
      match l.instrument_key with
      | none => none
      | some key =>
          let candles := fetchOi key
          match candles.getLast? with
          | none => none
          | some last =>
              some { strike := strike
                     chg10 := appOiChangeCell candles last.oi now 10
                     chg15 := appOiChangeCell candles last.oi now 15
                     chg30 := appOiChangeCell candles last.oi now 30 }

/-- src/app.py:259-261 resp. 267-269: the number of highlighted cells one
processed row contributes — absolute change against the per-window
thresholds 10, 15 and 25. -/
def rowHighlights (r : RowResult) : ℕ :=
  (if |r.chg10| > 10 then 1 else 0) +
    (if |r.chg15| > 15 then 1 else 0) +
    (if |r.chg30| > 25 then 1 else 0)

/-- src/app.py:252-269: the loop over the option chain. Strikes outside
`strikes_to_fetch` are skipped; for the call and then the put leg, a
processed row is appended to its list and its highlighted cells are added
to the running count. Returns (calls, puts, highlighted_cells). -/
def processChain (fetchOi : String → List Candle) (now : ℤ)
    (strikes : List ℚ) (chain : List StrikeData) :
    List RowResult × List RowResult × ℕ :=
  chain.foldl
    (fun acc sd =>
      if sd.strike_price ∈ strikes then
        let acc1 :=
          match process_single_option fetchOi now sd.call_options sd.strike_price with
          | some r => (acc.1 ++ [r], acc.2.1, acc.2.2 + rowHighlights r)
          | none => acc
        match process_single_option fetchOi now sd.put_options sd.strike_price with
        | some r => (acc1.1, acc1.2.1 ++ [r], acc1.2.2 + rowHighlights r)
        | none => acc1
      else acc)
    ([], [], 0)

/-- The `app_state["status"]` values taken by src/app.py (the display
message strings are elided). -/
inductive Status where
  | starting
  | working
  | err
  | warn
  | ok
deriving DecidableEq

/-- src/app.py:35-40 `app_state`: status, the published grid data (`None`
until the first successful cycle) and the time of the last publish. -/
structure AppState where
  status : Status
  data : Option (List RowResult × List RowResult × Bool)
  last_updated : Option ℤ

/-- src/app.py:215-284 `update_data_in_background`, with the fallible
fetches passed in as inputs: `atm?` is the result of `get_atm_strike`,
`expiry?` of `get_nearest_weekly_expiry`, `chain?` of `get_option_chain`
(each `none` on failure, as each returns None there), and `fetchOi` the
per-instrument candle source. A failed fetch sets the status and returns
with `data` and `last_updated` untouched; the success path publishes the
new grid `(calls, puts, alert)` with `alert` from the strict majority test
over `total_cells = len(strikes_to_fetch) * 3 * 2`. -/
def update_data_in_background (apiOk : Bool) (atm? : Option ℚ)
    (expiry? : Option String) (chain? : Option (List StrikeData))
    (fetchOi : String → List Candle) (now : ℤ) (st : AppState) : AppState :=
  if !apiOk then st
  else
    let st1 : AppState := { st with status := .working }
    match atm? with
    | none => { st1 with status := .err }
    | some atm =>
        match expiry? with
        | none => { st1 with status := .err }
        | some _ =>
            match chain? with
            | none => { st1 with status := .err }
            | some chain =>
                let strikes := strikesToFetch atm
                let res := processChain fetchOi now strikes chain
                let total := strikes.length * 3 * 2
                if res.1.isEmpty && res.2.1.isEmpty then { st1 with status := .warn }
                else
                  { status := .ok
                    data := some (res.1, res.2.1, computeAlert res.2.2 total)
                    last_updated := some now }

/-! ## Helper lemmas -/

theorem find?_pred_congr {α : Type} {p q : α → Bool} :
    ∀ {l : List α}, (∀ a ∈ l, p a = q a) → l.find? p = l.find? q := by
  intro l
  induction l with
  | nil => intro _; rfl
  | cons a as ih =>
      intro h
      have ha := h a (List.mem_cons_self a as)
      rw [List.find?_cons, List.find?_cons, ha]
      cases q a with
      | true => rfl
      | false => exact ih fun x hx => h x (List.mem_cons_of_mem a hx)

theorem findGo_eq_find? (target : ℤ) (lat : Option (ℤ × ℤ)) (l : List Candle) :
    findGo target lat l =
      (l.find? fun c => decide (c.time ≤ target) && latOk lat c).map Candle.oi := by
  induction l with
  | nil => rfl
  | cons c cs ih =>
      rw [findGo, List.find?_cons]
      by_cases h : c.time ≤ target
      · cases hl : latOk lat c with
        | true => simp [h, hl]
        | false => simp [h, hl, ih]
      · simp [h, ih]

theorem appGo_eq_find? (target : ℤ) (l : List Candle) :
    appGo target l = (l.find? fun c => decide (c.time ≤ target)).map Candle.oi := by
  induction l with
  | nil => rfl
  | cons c cs ih =>
      rw [appGo, List.find?_cons]
      by_cases h : c.time ≤ target
      · simp [h]
      · simp [h, ih]

theorem foldl_if_count {α : Type} (f : α → Bool) :
    ∀ (l : List α) (acc : ℕ),
      l.foldl (fun a x => if f x then a + 1 else a) acc = acc + l.countP f := by
  intro l
  induction l with
  | nil => intro acc; simp
  | cons x xs ih =>
      intro acc
      rw [List.foldl_cons, List.countP_cons]
      by_cases h : f x
      · rw [if_pos h, ih, if_pos h]; omega
      · rw [if_neg h, ih, if_neg h]; omega

theorem roundHalfEven_of_floor {x : ℚ} {f : ℤ} (hf : ⌊x⌋ = f)
    (hr : x - f < 1 / 2) : roundHalfEven x = f := by
  rw [roundHalfEven, hf, if_pos hr]

theorem foldl_add_map_sum {α : Type} (g : α → ℕ) :
    ∀ (l : List α) (acc : ℕ),
      l.foldl (fun a x => a + g x) acc = acc + (l.map g).sum := by
  intro l
  induction l with
  | nil => intro acc; simp
  | cons x xs ih =>
      intro acc
      rw [List.foldl_cons, ih, List.map_cons, List.sum_cons]
      omega

theorem atm_foldl_min (ltp : ℚ) :
    ∀ (l : List ℚ) (b : ℚ),
      (l.foldl (fun best z => if |z - ltp| < |best - ltp| then z else best) b = b ∨
        l.foldl (fun best z => if |z - ltp| < |best - ltp| then z else best) b ∈ l) ∧
      |l.foldl (fun best z => if |z - ltp| < |best - ltp| then z else best) b - ltp| ≤
        |b - ltp| ∧
      ∀ x ∈ l,
        |l.foldl (fun best z => if |z - ltp| < |best - ltp| then z else best) b - ltp| ≤
          |x - ltp| := by
  intro l
  induction l with
  | nil =>
      intro b
      exact ⟨Or.inl rfl, le_refl _, fun x hx => absurd hx (List.not_mem_nil x)⟩
  | cons y ys ih =>
      intro b
      simp only [List.foldl_cons]
      by_cases hy : |y - ltp| < |b - ltp|
      · rw [if_pos hy]
        obtain ⟨hmem, hle, hall⟩ := ih y
        refine ⟨?_, hle.trans hy.le, ?_⟩
        · rcases hmem with h | h
          · exact Or.inr (by rw [h]; exact List.mem_cons_self y ys)
          · exact Or.inr (List.mem_cons_of_mem y h)
        · intro x hx
          rcases List.mem_cons.mp hx with rfl | hx'
          · exact hle
          · exact hall x hx'
      · rw [if_neg hy]
        obtain ⟨hmem, hle, hall⟩ := ih b
        refine ⟨?_, hle, ?_⟩
        · rcases hmem with h | h
          · exact Or.inl h
          · exact Or.inr (List.mem_cons_of_mem y h)
        · intro x hx
          rcases List.mem_cons.mp hx with rfl | hx'
          · exact hle.trans (not_lt.mp hy)
          · exact hall x hx'

theorem atm_foldl_tie (ltp : ℚ) :
    ∀ (l : List ℚ) (b : ℚ), List.Chain' (· < ·) (b :: l) →
      ∀ x ∈ b :: l,
        |x - ltp| =
          |l.foldl (fun best z => if |z - ltp| < |best - ltp| then z else best) b - ltp| →
        l.foldl (fun best z => if |z - ltp| < |best - ltp| then z else best) b ≤ x := by
  intro l
  induction l with
  | nil =>
      intro b _ x hx _
      rw [List.foldl_nil]
      rw [List.mem_singleton.mp hx]
  | cons y ys ih =>
      intro b hchain x hx heq
      have hby : b < y := (List.chain'_cons.mp hchain).1
      have hchain2 : List.Chain' (· < ·) (y :: ys) := (List.chain'_cons.mp hchain).2
      simp only [List.foldl_cons] at heq ⊢
      by_cases hy : |y - ltp| < |b - ltp|
      · rw [if_pos hy] at heq ⊢
        rcases List.mem_cons.mp hx with rfl | hx'
        · exfalso
          have hle := (atm_foldl_min ltp ys y).2.1
          have hlt : |ys.foldl (fun best z => if |z - ltp| < |best - ltp| then z else best) y - ltp| <
              |x - ltp| := lt_of_le_of_lt hle hy
          rw [heq] at hlt
          exact lt_irrefl _ hlt
        · exact ih y hchain2 x hx' heq
      · rw [if_neg hy] at heq ⊢
        have hchain3 : List.Chain' (· < ·) (b :: ys) := by
          cases ys with
          | nil => exact List.chain'_singleton b
          | cons z zs =>
              exact List.chain'_cons.mpr
                ⟨lt_trans hby (List.chain'_cons.mp hchain2).1,
                  (List.chain'_cons.mp hchain2).2⟩
        rcases List.mem_cons.mp hx with rfl | hx'
        · exact ih x hchain3 x (List.mem_cons_self x ys) heq
        · rcases List.mem_cons.mp hx' with rfl | hx''
          · have hble : |b - ltp| ≤ |x - ltp| := not_lt.mp hy
            have hle := (atm_foldl_min ltp ys b).2.1
            have hbeq : |b - ltp| =
                |ys.foldl (fun best z => if |z - ltp| < |best - ltp| then z else best) b - ltp| :=
              le_antisymm (hble.trans heq.le) hle
            exact (ih b hchain3 b (List.mem_cons_self b ys) hbeq).trans (le_of_lt hby)
          · exact ih b hchain3 x (List.mem_cons_of_mem b hx'') heq

theorem redCount_eq_sum (data : List (ℚ × List (ℕ × ℚ))) :
    createOiTableRedCount data =
      (data.map fun row =>
        CREATE_THRESHOLDS.countP fun p => createCellRed row.2 p.1 p.2).sum := by
  unfold createOiTableRedCount
  have hin : ∀ (acc : ℕ) (row : ℚ × List (ℕ × ℚ)),
      CREATE_THRESHOLDS.foldl
        (fun acc2 p => if createCellRed row.2 p.1 p.2 then acc2 + 1 else acc2) acc =
        acc + CREATE_THRESHOLDS.countP fun p => createCellRed row.2 p.1 p.2 :=
    fun acc row => foldl_if_count _ _ acc
  simp only [hin]
  rw [foldl_add_map_sum, Nat.zero_add]
  exact ((List.mergeSort_perm data _).map _).sum_eq

/-! ## Claims -/

/-- C10: `calculate_oi_change` is total for every combination of missing
(`None`) and zero inputs, and its division is fully guarded: replacing the
division by a checked division that signals a zero divisor never signals —
the division-by-zero branch is unreachable. -/
theorem calculate_oi_change_total_guarded (i c : Option ℚ) :
    calculate_oi_change_checked i c = some (calculate_oi_change i c) := by
  match i, c with
  | none, _ => rfl
  | some _, none => rfl
  | some a, some b =>
      by_cases h : a = 0
      · simp [calculate_oi_change, calculate_oi_change_checked, h]
      · simp [calculate_oi_change, calculate_oi_change_checked, checkedDiv, h]

/-- C1: evaluation at the failing inputs. A past sample with OI 0 (and
likewise a missing past sample) makes `calculate_oi_change` return the
number 0.0, and makes the per-cell computation of app.py store the number
0 — not a distinct unavailable sentinel. The series below has its nearest
past sample at time 0 with oi = 0 for a 10-minute window ending at time 10. -/
theorem zero_oi_fallback_eval :
    calculate_oi_change (some 0) (some 1200) = 0 ∧
    calculate_oi_change none (some 1200) = 0 ∧
    appOiChangeCell [⟨0, 0⟩, ⟨10, 1200⟩] 1200 10 10 = 0 ∧
    appOiChangeCell [] 1200 10 10 = 0 := by
  refine ⟨by decide, by decide, by decide, by decide⟩

/-- C3 counterexample: appending a sample whose timestamp (5) is earlier
than the series' latest timestamp (10) does not leave the series
unchanged — the sample is inserted, not discarded. -/
theorem append_out_of_order_not_discarded :
    appendSample [(10, 100)] 5 200 ≠ [(10, 100)] := by
  decide

/-- C3 amended: appends are unconditional. The in-memory series append of
oi_tracker.py always places the new sample at the end — whatever its
timestamp, including one earlier than or equal to an existing timestamp —
and the database insert of `log_oi_datapoint` always adds a row (the table
has no uniqueness constraint on instrument and timestamp). -/
theorem append_always_inserts (s : List (ℤ × ℤ)) (t oi : ℤ)
    (tbl : List OiRow) (k : String) (t2 oi2 : ℤ) :
    (appendSample s t oi).getLast? = some (t, oi) ∧
    (appendSample s t oi).length = s.length + 1 ∧
    (log_oi_datapoint tbl k t2 oi2).length = tbl.length + 1 := by
  refine ⟨?_, ?_, ?_⟩ <;> simp [appendSample, log_oi_datapoint]

/-- C8: the aggregate alert is raised iff the ratio of highlighted cells to
total cells strictly exceeds one half (so exactly one half does not raise
it), and the cell total of app.py is the full grid size — 5 strikes × 3
windows × 2 sides = 30 — independent of how many cells were available. -/
theorem alert_strict_majority (b t : ℕ) (atm : ℚ) :
    (computeAlert b t = true ↔ 0 < t ∧ t < 2 * b) ∧ totalCellsApp atm = 30 := by
  constructor
  · simp only [computeAlert, Bool.and_eq_true, decide_eq_true_eq, gt_iff_lt]
    constructor
    · rintro ⟨h1, h2⟩
      have ht : (0 : ℚ) < t := by exact_mod_cast h1
      rw [lt_div_iff₀ ht] at h2
      refine ⟨h1, ?_⟩
      have h3 : (t : ℚ) < 2 * b := by linarith
      exact_mod_cast h3
    · rintro ⟨h1, h2⟩
      have ht : (0 : ℚ) < t := by exact_mod_cast h1
      refine ⟨h1, ?_⟩
      rw [lt_div_iff₀ ht]
      have h3 : (t : ℚ) < 2 * b := by exact_mod_cast h2
      linarith
  · rfl

/-- C8 witness: the spec's boundary instances via the theorem — 3 breached
of 4 cells raises the alert, 2 of 4 (ratio exactly one half) does not. -/
theorem alert_strict_majority_witness :
    computeAlert 3 4 = true ∧ computeAlert 2 4 = false := by
  constructor
  · exact (alert_strict_majority 3 4 100).1.mpr ⟨by norm_num, by norm_num⟩
  · have h := (alert_strict_majority 2 4 100).1
    exact Bool.eq_false_iff.mpr fun hc => absurd (h.mp hc).2 (by omega)

/-- C9: a failed price fetch (`atm? = none`), expiry fetch or option-chain
fetch makes `update_data_in_background` return before any per-instrument
processing: the published grid (`data`) and its timestamp (`last_updated`)
are exactly those of the previous state — the last-known-good grid keeps
being served. -/
theorem fetch_failure_preserves_grid (apiOk : Bool) (atm? : Option ℚ)
    (expiry? : Option String) (chain? : Option (List StrikeData))
    (fetchOi : String → List Candle) (now : ℤ) (st : AppState)
    (h : atm? = none ∨ expiry? = none ∨ chain? = none) :
    (update_data_in_background apiOk atm? expiry? chain? fetchOi now st).data = st.data ∧
    (update_data_in_background apiOk atm? expiry? chain? fetchOi now st).last_updated =
      st.last_updated := by
  unfold update_data_in_background
  rcases h with h | h | h <;> subst h
  · cases apiOk <;> simp
  · cases apiOk <;> cases atm? <;> simp
  · cases apiOk <;> cases atm? <;> cases expiry? <;> simp

/-- C9 witness: with a concrete previous grid and a failing price fetch,
the published data and timestamp survive unchanged. -/
theorem fetch_failure_preserves_grid_witness :
    (update_data_in_background true none none none (fun _ => []) 0
        ⟨Status.ok, some ([], [], false), some 5⟩).data = some ([], [], false) ∧
    (update_data_in_background true none none none (fun _ => []) 0
        ⟨Status.ok, some ([], [], false), some 5⟩).last_updated = some 5 := by
  have h := fetch_failure_preserves_grid true none none none (fun _ => []) 0
    ⟨Status.ok, some ([], [], false), some 5⟩ (Or.inl rfl)
  exact ⟨h.1, h.2⟩

/-- C2: whenever the `latest_oi_and_time` filter rejects no candle (as at
the only call site, where the reference time is the newest candle's own
timestamp), `find_oi_at_timestamp` returns the OI of the first candle of
the backward scan — i.e. the latest candle — whose timestamp is at or
before the target; it returns `none` (distinct from an OI of 0) exactly
when every candle is strictly after the target; and any OI it does return
belongs to a candle at or before the target — never one strictly after. -/
theorem find_oi_at_timestamp_spec (candles : List Candle) (target : ℤ)
    (lat : Option (ℤ × ℤ)) (hlat : ∀ c ∈ candles, latOk lat c = true) :
    find_oi_at_timestamp candles target lat =
      (candles.reverse.find? fun c => decide (c.time ≤ target)).map Candle.oi ∧
    (find_oi_at_timestamp candles target lat = none ↔
      ∀ c ∈ candles, target < c.time) ∧
    (∀ o, find_oi_at_timestamp candles target lat = some o →
      ∃ c, c ∈ candles ∧ c.time ≤ target ∧ c.oi = o) := by
  have key : find_oi_at_timestamp candles target lat =
      (candles.reverse.find? fun c => decide (c.time ≤ target)).map Candle.oi := by
    rw [find_oi_at_timestamp, findGo_eq_find?]
    congr 1
    apply find?_pred_congr
    intro c hc
    rw [hlat c (List.mem_reverse.mp hc), Bool.and_true]
  refine ⟨key, ?_, ?_⟩
  · rw [key, Option.map_eq_none', List.find?_eq_none]
    constructor
    · intro h c hc
      have := h c (List.mem_reverse.mpr hc)
      simpa using this
    · intro h c hc
      have := h c (List.mem_reverse.mp hc)
      simpa using this
  · intro o ho
    rw [key] at ho
    match hfind : candles.reverse.find? fun c => decide (c.time ≤ target) with
    | none => rw [hfind] at ho; exact absurd ho (by simp)
    | some c =>
        rw [hfind] at ho
        refine ⟨c, List.mem_reverse.mp (List.mem_of_find?_eq_some hfind), ?_, ?_⟩
        · simpa using List.find?_some hfind
        · simpa using ho

/-- C2 witness: on a concrete two-sample series with target time 1 and no
latest filter, the lookup returns the OI recorded at time 1. -/
theorem find_oi_at_timestamp_spec_witness :
    find_oi_at_timestamp [⟨1, 100⟩, ⟨2, 200⟩] 1 none =
      (([⟨1, 100⟩, ⟨2, 200⟩] : List Candle).reverse.find?
        fun c => decide (c.time ≤ 1)).map Candle.oi ∧
    find_oi_at_timestamp [⟨1, 100⟩, ⟨2, 200⟩] 1 none = some 100 :=
  ⟨(find_oi_at_timestamp_spec [⟨1, 100⟩, ⟨2, 200⟩] 1 none (by decide)).1, by decide⟩

/-- C7 counterexample: the claim says the computed change is the formula
rounded to two decimal places, but `calculate_oi_change` of logic.py (past
OI 3, latest OI 4) returns the unrounded value 100/3, which differs from
its two-decimal rounding 33.33. -/
theorem logic_change_not_rounded :
    calculate_oi_change (some 3) (some 4) = 100 / 3 ∧
    calculate_oi_change (some 3) (some 4) ≠
      pythonRound2 ((((4 : ℚ) - 3) / 3) * 100) := by
  have harg : (((4 : ℚ) - 3) / 3) * 100 * 100 = 10000 / 3 := by norm_num
  have hfloor : ⌊((((4 : ℚ) - 3) / 3) * 100 * 100)⌋ = 3333 := by
    rw [harg, Int.floor_eq_iff]
    norm_num
  have hround : roundHalfEven ((((4 : ℚ) - 3) / 3) * 100 * 100) = 3333 := by
    refine roundHalfEven_of_floor hfloor ?_
    rw [harg]; norm_num
  have hval : calculate_oi_change (some 3) (some 4) = 100 / 3 := by
    simp only [calculate_oi_change]
    norm_num
  refine ⟨hval, ?_⟩
  rw [hval, pythonRound2, hround]
  norm_num

/-- C7 amended: in app.py the per-cell change for an eligible past sample
with positive OI is exactly ((latest − past) / past) × 100 rounded to two
decimal places (Python `round`, half to even); in logic.py
`calculate_oi_change` returns the same formula unrounded. -/
theorem app_change_formula (candles : List Candle) (latest now window : ℤ)
    (c : Candle)
    (hfind : (candles.reverse.find? fun x => decide (x.time ≤ now - window)) = some c)
    (hpos : 0 < c.oi) :
    appOiChangeCell candles latest now window =
      pythonRound2 (((latest : ℚ) - c.oi) / c.oi * 100) ∧
    ∀ i cur : ℚ, i ≠ 0 →
      calculate_oi_change (some i) (some cur) = ((cur - i) / i) * 100 := by
  constructor
  · have h1 : appPastOi candles (now - window) = some c.oi := by
      rw [appPastOi, appGo_eq_find?, hfind]; rfl
    rw [appOiChangeCell, h1]
    simp [hpos]
  · intro i cur hi
    simp [calculate_oi_change, hi]

/-- C7 witness: the spec's example series — past OI 1000 at time 0, latest
OI 1200 at time 10, a 10-minute window ending now = 10 — yields a change of
exactly 20.00. -/
theorem app_change_formula_witness :
    appOiChangeCell [⟨0, 1000⟩, ⟨10, 1200⟩] 1200 10 10 = 20 := by
  have h := (app_change_formula [⟨0, 1000⟩, ⟨10, 1200⟩] 1200 10 10 ⟨0, 1000⟩
    (by decide) (by decide)).1
  refine h.trans ?_
  have harg : (((1200 : ℤ) : ℚ) - ((Candle.mk 0 1000).oi : ℚ)) /
      ((Candle.mk 0 1000).oi : ℚ) * 100 = 20 := by
    norm_num
  have hround : roundHalfEven ((((1200 : ℤ) : ℚ) - ((Candle.mk 0 1000).oi : ℚ)) /
      ((Candle.mk 0 1000).oi : ℚ) * 100 * 100) = 2000 := by
    refine roundHalfEven_of_floor ?_ ?_ <;> rw [harg] <;> norm_num
  rw [pythonRound2, hround]
  norm_num

/-- C4 counterexample: in `create_oi_table` a cell whose change is −50 with
threshold 10 is not counted as breached (count 0), while the equally large
positive change +50 is (count 1) — even though the two have equal absolute
value exceeding the threshold. The claim's symmetric `|change| > T` rule
fails on this grid. -/
theorem create_table_signed_counterexample :
    createOiTableRedCount [(100, [(10, -50), (15, 0), (30, 0)])] = 0 ∧
    createOiTableRedCount [(100, [(10, 50), (15, 0), (30, 0)])] = 1 ∧
    |(-50 : ℚ)| = |(50 : ℚ)| ∧ |(-50 : ℚ)| > 10 := by
  rw [redCount_eq_sum, redCount_eq_sum]
  refine ⟨by decide, by decide, by decide, by decide⟩

/-- C4 amended: the breach test differs between the two grid variants. In
`generate_options_tables` a cell is breached iff its change is available
and its absolute value strictly exceeds the window's threshold, and an
unavailable (None) cell is never breached — the claim's rule. In
`create_oi_table` the test is signed: a cell is counted iff its raw change
(0 when the interval is unavailable) strictly exceeds the threshold, so
large negative changes never count and unavailable cells never count for
the (positive) configured thresholds; the returned red count is exactly
the number of cells passing this signed test. -/
theorem breach_rules_per_variant :
    (∀ (v : ℚ) (i : ℕ) (p : ℕ × ℚ),
      (PCT_CHANGE_THRESHOLDS.find? fun q => q.1 == i) = some p →
        (genBreach (some v) i = true ↔ |v| > p.2)) ∧
    (∀ i : ℕ, genBreach none i = false) ∧
    (∀ (ch : List (ℕ × ℚ)) (i : ℕ) (th : ℚ),
      createCellRed ch i th = true ↔ lookupD ch i 0 > th) ∧
    (∀ (ch : List (ℕ × ℚ)) (i : ℕ) (th : ℚ),
      0 ≤ th → lookupD ch i 0 ≤ 0 → createCellRed ch i th = false) ∧
    (∀ data : List (ℚ × List (ℕ × ℚ)),
      createOiTableRedCount data =
        (data.map fun row =>
          CREATE_THRESHOLDS.countP fun p => createCellRed row.2 p.1 p.2).sum) := by
  refine ⟨?_, ?_, ?_, ?_, ?_⟩
  · intro v i p h
    simp [genBreach, h]
  · intro i
    cases h : PCT_CHANGE_THRESHOLDS.find? fun q => q.1 == i <;> simp [genBreach, h]
  · intro ch i th
    simp [createCellRed]
  · intro ch i th h1 h2
    simp only [createCellRed, decide_eq_false_iff_not, not_lt]
    linarith
  · exact redCount_eq_sum

/-- C4 witness: the breach rules via the theorem at concrete cells — in
`generate_options_tables` a change of −50 against threshold 10 breaches
(absolute-value test) and an unavailable cell does not, while the same −50
change never makes `create_oi_table` count its cell. -/
theorem breach_rules_per_variant_witness :
    genBreach (some (-50)) 10 = true ∧ genBreach none 10 = false ∧
    createCellRed [(10, -50)] 10 10 = false := by
  obtain ⟨h1, h2, -, h4, -⟩ := breach_rules_per_variant
  refine ⟨?_, h2 10, ?_⟩
  · exact (h1 (-50) 10 (10, 10) (by decide)).mpr (by decide)
  · exact h4 [(10, -50)] 10 10 (by decide) (by decide)

/-- C5: for a non-empty ascending list of distinct strikes, `find_atm_strike`
returns a member of the list at minimal absolute distance to the price,
and on a tie it returns the lower of the equidistant strikes (Python `min`
keeps the first minimiser in iteration order, which in an ascending list
is the lower one). -/
theorem find_atm_strike_spec (ltp : ℚ) (strikes : List ℚ)
    (hne : strikes ≠ []) (hsort : List.Sorted (· < ·) strikes) :
    ∃ m, find_atm_strike ltp strikes = some m ∧ m ∈ strikes ∧
      (∀ x ∈ strikes, |m - ltp| ≤ |x - ltp|) ∧
      (∀ x ∈ strikes, |x - ltp| = |m - ltp| → m ≤ x) := by
  match strikes, hne with
  | s :: rest, _ =>
      refine ⟨rest.foldl (fun best z => if |z - ltp| < |best - ltp| then z else best) s,
        rfl, ?_, ?_, ?_⟩
      · obtain ⟨hmem, -, -⟩ := atm_foldl_min ltp rest s
        rcases hmem with h | h
        · rw [h]; exact List.mem_cons_self s rest
        · exact List.mem_cons_of_mem s h
      · intro x hx
        obtain ⟨-, hle, hall⟩ := atm_foldl_min ltp rest s
        rcases List.mem_cons.mp hx with rfl | hx'
        · exact hle
        · exact hall x hx'
      · intro x hx heq
        exact atm_foldl_tie ltp rest s (List.chain'_iff_pairwise.mpr hsort) x hx heq

/-- C5 witness: the spec's example — price 150, strikes [100, 200] — both
strikes are 50 away and the lower one, 100, is returned. -/
theorem find_atm_strike_spec_witness :
    find_atm_strike 150 [100, 200] = some 100 ∧
    ∃ m, find_atm_strike 150 [100, 200] = some m ∧ m ∈ ([100, 200] : List ℚ) ∧
      (∀ x ∈ ([100, 200] : List ℚ), |m - 150| ≤ |x - 150|) ∧
      (∀ x ∈ ([100, 200] : List ℚ), |x - 150| = |m - 150| → m ≤ x) := by
  refine ⟨?_, find_atm_strike_spec 150 [100, 200] (by simp) (by decide)⟩
  have h1 : |(200 : ℚ) - 150| = 50 := by
    rw [show (200 : ℚ) - 150 = 50 by norm_num]
    exact abs_of_pos (by norm_num)
  have h2 : |(100 : ℚ) - 150| = 50 := by
    rw [show (100 : ℚ) - 150 = -50 by norm_num, abs_neg]
    exact abs_of_pos (by norm_num)
  simp [find_atm_strike, h1, h2]

/-- C6: on a sorted strike list, `get_relevant_strikes` (generalised band
half-width n) returns the contiguous sublist around the ATM index, clipped
at the boundaries — the element at position j of the band is the strike at
index max(0, i−n) + j, and the band's last index is min(len−1, i+n) — and
it returns the empty list, without raising, when the ATM value is not a
member. -/
theorem get_relevant_strikes_spec (n : ℕ) (atm : ℚ) (strikes : List ℚ)
    (hsort : List.Sorted (· < ·) strikes) :
    (atm ∉ strikes → getRelevantStrikesN n atm strikes = []) ∧
    (∀ i : ℕ, strikes[i]? = some atm →
      (getRelevantStrikesN n atm strikes).length =
        min strikes.length (i + n + 1) - (i - n) ∧
      ∀ j : ℕ, j < (getRelevantStrikesN n atm strikes).length →
        (getRelevantStrikesN n atm strikes)[j]? = strikes[i - n + j]?) := by
  have hms : (strikes.mergeSort fun a b => decide (a ≤ b)) = strikes :=
    List.mergeSort_eq_self (hsort.imp le_of_lt)
  constructor
  · intro hnot
    have hidx : List.findIdx? (fun x => decide (x = atm)) strikes = none := by
      rw [List.findIdx?_eq_none_iff]
      intro x hx
      simp only [decide_eq_false_iff_not]
      intro h
      exact hnot (h ▸ hx)
    simp only [getRelevantStrikesN, hms, hidx]
  · intro i hi
    obtain ⟨hilen, hival⟩ := List.getElem?_eq_some.mp hi
    have hidx : List.findIdx? (fun x => decide (x = atm)) strikes = some i := by
      rw [List.findIdx?_eq_some_iff_getElem]
      refine ⟨hilen, by simp [hival], ?_⟩
      intro j hj
      have hlt := List.pairwise_iff_getElem.mp hsort j i
        (lt_trans hj hilen) hilen hj
      simp only [Bool.not_eq_true, decide_eq_false_iff_not]
      rw [hival] at hlt
      exact ne_of_lt hlt
    have hval : getRelevantStrikesN n atm strikes =
        (strikes.take (min strikes.length (i + n + 1))).drop (i - n) := by
      simp only [getRelevantStrikesN, hms, hidx]
    rw [hval]
    constructor
    · simp only [List.length_drop, List.length_take]
      omega
    · intro j hj
      simp only [List.length_drop, List.length_take] at hj
      rw [List.getElem?_drop, List.getElem?_take, if_pos (by omega)]

/-- C6 witness: the spec's boundary-clip example — strikes [50, 100, 150,
200], atm = 50 (index 0), n = 2 — yields [50, 100, 150] of length
min(4, 3) − 0 = 3: clipped at the left boundary, no wrap, no error. -/
theorem get_relevant_strikes_spec_witness :
    getRelevantStrikesN 2 50 [50, 100, 150, 200] = [50, 100, 150] ∧
    (getRelevantStrikesN 2 50 [50, 100, 150, 200]).length =
      min ([50, 100, 150, 200] : List ℚ).length (0 + 2 + 1) - (0 - 2) := by
  refine ⟨?_,
    ((get_relevant_strikes_spec 2 50 [50, 100, 150, 200] (by decide)).2 0 (by decide)).1⟩
  have hms : (([50, 100, 150, 200] : List ℚ).mergeSort fun a b => decide (a ≤ b)) =
      [50, 100, 150, 200] :=
    List.mergeSort_eq_self (by decide)
  simp only [getRelevantStrikesN, hms]
  decide

end OiTracker
